import Mathlib

/-!
Shallow embedding of the Toy-IR-Engine repository (src/IREngine.py, src/document.py).

The engine keeps a document store (`documents`, a dict from document id to
Document) and an inverted index (`inverted_index`, a dict from term to a dict
from document id to the raw occurrence count of the term in that document).
Python dicts are modelled as association lists; new keys are appended at the
end and existing keys are updated in place, which gives a deterministic model
of the dict/set iteration the source relies on.  Floating point arithmetic is
modelled over the reals.  Fallible operations (dict access that can raise
`KeyError`, division that can raise `ZeroDivisionError`, and the NaN produced
by `scipy.spatial.distance.cosine` on a zero-magnitude vector) are modelled in
the `Option` monad, with `none` standing for the fault/undefined value.
-/

namespace ToyIR

/-- Document record from src/document.py: an id, the raw text and the token
sequence produced by the (external) tokenizer at construction time.
`Document.__str__` returns the raw text, which is what `query_by_terms`
ultimately returns for each hit. -/
structure Document where
  doc_id : String
  text : String
  terms : List String
deriving DecidableEq

/-- Postings dict of one term: document id mapped to raw occurrence count. -/
abbrev Postings := List (String × Nat)

/-- Engine state from src/IREngine.py: the `documents` dict and the
`inverted_index` dict. -/
structure IREngine where
  documents : List (String × Document)
  inverted_index : List (String × Postings)
deriving DecidableEq

/-- Association-list lookup, modelling Python dict access `d.get(key)`. -/
def alookup {β : Type} : List (String × β) → String → Option β
  | [], _ => none
  | (k, v) :: rest, key => if k = key then some v else alookup rest key

/-- Body of the inner conditional of `update_inverted_index` (and of the
query-term frequency loop of `calculate_tf_idf_for_query`): if the id is not
yet a key its count becomes 1, otherwise the count is incremented. -/
def addPosting : Postings → String → Postings
  | [], doc_id => [(doc_id, 1)]
  | (i, c) :: rest, doc_id =>
      if i = doc_id then (i, c + 1) :: rest else (i, c) :: addPosting rest doc_id

/-- One iteration of the `for term in document.terms` loop of
`update_inverted_index`: create the term entry if absent, then put/bump the
count for `doc_id`. -/
def record_term (idx : List (String × Postings)) (term doc_id : String) :
    List (String × Postings) :=
  match idx with
  | [] => [(term, addPosting [] doc_id)]
  | (t, ps) :: rest =>
      if t = term then (t, addPosting ps doc_id) :: rest
      else (t, ps) :: record_term rest term doc_id

/-- `IREngine.update_inverted_index`: scan the document's term sequence and
increment the count of `(term, doc_id)` for each occurrence. -/
def update_inverted_index (idx : List (String × Postings)) (document : Document) :
    List (String × Postings) :=
  document.terms.foldl (fun acc term => record_term acc term document.doc_id) idx

/-- `IREngine.add_document`: if the id is not yet present, insert the document
and update the inverted index, returning `true`; otherwise leave the state
unchanged and return `false` (the printed error message and `False` return of
the source are the duplicate-document signal). -/
def add_document (e : IREngine) (document : Document) : Bool × IREngine :=
  if (alookup e.documents document.doc_id).isNone then
    (true, { documents := e.documents ++ [(document.doc_id, document)],
             inverted_index := update_inverted_index e.inverted_index document })
  else (false, e)

/-- `IREngine.__init__`: empty document store, empty inverted index. -/
def IREngine.init : IREngine := ⟨[], []⟩

/-- Engine states reachable from a fresh engine by `add_document` calls
(a rejected duplicate add leaves the state unchanged, so this is exactly the
set of states reachable by successful adds). -/
inductive Reachable : IREngine → Prop
  | init : Reachable IREngine.init
  | add (e : IREngine) (d : Document) : Reachable e → Reachable (add_document e d).2

/-- Postings dict of a term, `self.inverted_index.get(term, {})`. -/
def IREngine.postings (e : IREngine) (term : String) : Postings :=
  (alookup e.inverted_index term).getD []

/-- Lookup of the count stored in an inverted index under `(term, id)`:
absent term or absent id both read as "no entry". -/
def plook (idx : List (String × Postings)) (t i : String) : Option Nat :=
  alookup ((alookup idx t).getD []) i

/-- Number of occurrences of `term` in the stored document with id `id`
(0 if no such document): the quantity the inverted index caches. -/
def docTermCount (e : IREngine) (id term : String) : Nat :=
  match alookup e.documents id with
  | some d => d.terms.count term
  | none => 0

/-- Number of distinct stored documents whose term sequence contains `term`
(the document frequency as the spec defines it). -/
def df_spec (e : IREngine) (term : String) : Nat :=
  (e.documents.filter (fun p => decide (term ∈ p.2.terms))).length

/-- Python list slice `l[:k]` for an arbitrary integer `k`: a negative `k`
counts from the end (`max 0 (len + k)` elements), a nonnegative `k` takes at
most `k` elements. -/
def pyTake {α : Type} (l : List α) (k : Int) : List α :=
  l.take (if k < 0 then ((l.length : Int) + k).toNat else k.toNat)

/-- `IREngine._get_relevant_doc_ids`: union over the query terms of the
document ids in their postings dicts.  The Python code accumulates into a
`set`; the model keeps first-encounter order, a deterministic rendering of
set iteration. -/
def _get_relevant_doc_ids (e : IREngine) (terms : List String) : List String :=
  terms.foldl (fun acc term =>
    match alookup e.inverted_index term with
    | some ps => ps.foldl (fun acc2 p => if p.1 ∈ acc2 then acc2 else acc2 ++ [p.1]) acc
    | none => acc) []

/-- `IREngine._calculate_term_idf`: `1 + ln(N / df)` for an indexed term,
`1.0` for a term absent from the inverted index. -/
noncomputable def _calculate_term_idf (e : IREngine) (term : String) : ℝ :=
  let num_of_docs_with_term := (e.postings term).length
  if (alookup e.inverted_index term).isSome then
    1 + Real.log ((e.documents.length : ℝ) / (num_of_docs_with_term : ℝ))
  else 1

/-- IDF as the specification states it: `1.0` when `df(t) = 0`, else
`1.0 + ln(N / df(t))` with `df` the number of distinct indexed documents
containing the term.  Stated from the spec's words, to be compared with
`_calculate_term_idf` above. -/
noncomputable def idf_spec (e : IREngine) (term : String) : ℝ :=
  if df_spec e term = 0 then 1
  else 1 + Real.log ((e.documents.length : ℝ) / (df_spec e term : ℝ))

/-- `IREngine.calculate_tf_idf_for_query`: build the query-term frequency
dict by scanning the query terms, then map each query term to
`tf * idf = (count / len(query_terms)) * idf`. -/
noncomputable def calculate_tf_idf_for_query (e : IREngine) (query_terms : List String) :
    List ℝ :=
  let query_term_frequencies := query_terms.foldl (fun acc t => addPosting acc t) []
  query_terms.map (fun query_term =>
    (((alookup query_term_frequencies query_term).getD 0 : ℝ) / (query_terms.length : ℝ)) *
      _calculate_term_idf e query_term)

/-- Dot product of two coordinate lists. -/
def dotList (u v : List ℝ) : ℝ := (List.zipWith (fun a b => a * b) u v).sum

/-- Euclidean magnitude of a coordinate list. -/
noncomputable def normList (u : List ℝ) : ℝ := Real.sqrt (dotList u u)

/-- Models `scipy.spatial.distance.cosine` (an external collaborator, modelled
from its documented formula): `1 - dot(u,v) / (‖u‖ * ‖v‖)`; `none` models the
NaN it produces when either vector has zero magnitude. -/
noncomputable def cosine_distance (u v : List ℝ) : Option ℝ :=
  if normList u = 0 ∨ normList v = 0 then none
  else some (1 - dotList u v / (normList u * normList v))

/-- One iteration of the inner `for query_term in query_terms` loop of
`query_by_terms`: the document-side coordinate `query_tf * query_idf`, where
`query_tf` is 0 when the term is not in the inverted index and otherwise
`count(term, doc) / len(document.terms)` — a division that raises
`ZeroDivisionError` (modelled as `none`) when the document has no terms. -/
noncomputable def document_vector_entry (e : IREngine) (document : Document)
    (query_term : String) : Option ℝ :=
  match alookup e.inverted_index query_term with
  | some ps =>
      if document.terms.length = 0 then none
      else some ((((alookup ps document.doc_id).getD 0 : Nat) : ℝ) /
                   (document.terms.length : ℝ) * _calculate_term_idf e query_term)
  | none => some (0 * _calculate_term_idf e query_term)

/-- The inner loop of `query_by_terms` that builds `document_vector`. -/
noncomputable def build_document_vector (e : IREngine) (document : Document) :
    List String → Option (List ℝ)
  | [] => some []
  | qt :: rest => do
      let x ← document_vector_entry e document qt
      let xs ← build_document_vector e document rest
      pure (x :: xs)

/-- Body of the `for doc_id in relevant_doc_ids` loop of `query_by_terms`:
look the document up in the store (`KeyError` modelled as `none`), build its
vector over the query terms, and score it as
`1 - spatial.distance.cosine(query_vector, document_vector)`. -/
noncomputable def score_document (e : IREngine) (query_terms : List String)
    (query_tf_idf_vector : List ℝ) (doc_id : String) : Option (Document × ℝ) := do
  let document ← alookup e.documents doc_id
  let document_vector ← build_document_vector e document query_terms
  let dist ← cosine_distance query_tf_idf_vector document_vector
  pure (document, 1 - dist)

/-- The `results` list of `query_by_terms`: one `(document, similarity)` pair
per relevant doc id, in candidate order. -/
noncomputable def build_results (e : IREngine) (query_terms : List String)
    (query_tf_idf_vector : List ℝ) : List String → Option (List (Document × ℝ))
  | [] => some []
  | doc_id :: rest => do
      let r ← score_document e query_terms query_tf_idf_vector doc_id
      let rs ← build_results e query_terms query_tf_idf_vector rest
      pure (r :: rs)

/-- The unsorted scored candidate list of `query_by_terms`. -/
noncomputable def scored_results (e : IREngine) (query_terms : List String) :
    Option (List (Document × ℝ)) :=
  build_results e query_terms (calculate_tf_idf_for_query e query_terms)
    (_get_relevant_doc_ids e query_terms)

/-- Python's `sorted(results, key=lambda tup: tup[1], reverse=True)`: a stable
sort putting higher similarity first. -/
noncomputable def rank_results (results : List (Document × ℝ)) : List (Document × ℝ) :=
  results.mergeSort (fun a b => decide (b.2 ≤ a.2))

/-- `IREngine.query_by_terms`: score the relevant documents, clamp
`num_of_results` to the result count when it exceeds it, slice the sorted
list (`[:num_of_results]`, Python semantics, applied twice as in the source)
and return `str(document)` — the raw text — of each hit. -/
noncomputable def query_by_terms (e : IREngine) (query_terms : List String)
    (num_of_results : Int) : Option (List String) := do
  let results ← scored_results e query_terms
  let n := if num_of_results > (results.length : Int) then (results.length : Int)
           else num_of_results
  let top_results := pyTake (rank_results results) n
  pure ((pyTake top_results n).map (fun p => p.1.text))

/-- `IREngine.free_text_query`: tokenize via the external tokenizer
collaborator (a parameter here) and delegate to `query_by_terms`. -/
noncomputable def free_text_query (e : IREngine) (tokenize : String → List String)
    (query_text : String) (num_of_results : Int) : Option (List String) :=
  query_by_terms e (tokenize query_text) num_of_results

/-- The document-side TF-IDF vector that `query_by_terms` builds for the
stored document `dd` (stored under id `id`), written with `docTermCount`;
a helper for stating what the inner loop computes. -/
noncomputable def doc_vector_spec (e : IREngine) (id : String) (dd : Document)
    (ts : List String) : List ℝ :=
  ts.map (fun qt => (docTermCount e id qt : ℝ) / (dd.terms.length : ℝ) *
    _calculate_term_idf e qt)

/-- The clamping `if num_of_results > len(results): num_of_results = len(results)`
performed by `query_by_terms`. -/
def clamp_num (c : Nat) (k : Int) : Int := if k > (c : Int) then (c : Int) else k

/-- Structural invariant of reachable engine states: dict keys are distinct
at every level, a stored document carries its own key as id, every term entry
has a nonempty postings dict, and a postings lookup returns exactly the
occurrence count of the term in the stored document (absent when that count
is zero). -/
structure Inv (e : IREngine) : Prop where
  docs_nodup : (e.documents.map Prod.fst).Nodup
  doc_key : ∀ p ∈ e.documents, p.2.doc_id = p.1
  idx_nodup : (e.inverted_index.map Prod.fst).Nodup
  post_nodup : ∀ p ∈ e.inverted_index, (p.2.map Prod.fst).Nodup
  post_nonempty : ∀ p ∈ e.inverted_index, p.2 ≠ []
  lookup_eq : ∀ term id, alookup (e.postings term) id =
      (if docTermCount e id term = 0 then none else some (docTermCount e id term))

/-! ### Concrete documents and engine states used in witnesses and
counterexamples -/

/-- Example document: id "1", text "woof", single term. -/
def D1 : Document := ⟨"1", "woof", ["woof"]⟩

/-- Example document: id "2" with the same text and terms as `D1`. -/
def D2 : Document := ⟨"2", "woof", ["woof"]⟩

/-- A second document claiming the already-used id "1". -/
def D1dup : Document := ⟨"1", "again", ["again"]⟩

/-- Engine with the single document `D1` indexed. -/
def E1 : IREngine := (add_document IREngine.init D1).2

/-- Engine with `D1` and `D2` indexed: two distinct documents with equal text. -/
def E4 : IREngine := (add_document E1 D2).2

/-- Example document for the three-candidate engine. -/
def D5a : Document := ⟨"1", "a", ["dog"]⟩

/-- Second document of the three-candidate engine. -/
def D5b : Document := ⟨"2", "b", ["dog"]⟩

/-- Third document of the three-candidate engine. -/
def D5c : Document := ⟨"3", "c", ["dog"]⟩

/-- Engine with three documents all containing the single term "dog". -/
def E5 : IREngine :=
  (add_document (add_document (add_document IREngine.init D5a).2 D5b).2 D5c).2

/-- A document with an empty term sequence (degenerate document). -/
def Dempty : Document := ⟨"9", "", []⟩

/-! ### Association-list lemmas -/

theorem alookup_append {β : Type} (l₁ l₂ : List (String × β)) (k : String) :
    alookup (l₁ ++ l₂) k =
      (match alookup l₁ k with | some v => some v | none => alookup l₂ k) := by
  induction l₁ with
  | nil => simp [alookup]
  | cons p rest ih =>
      obtain ⟨a, b⟩ := p
      by_cases h : a = k <;> simp [alookup, h, ih]

theorem alookup_eq_none_iff {β : Type} (l : List (String × β)) (k : String) :
    alookup l k = none ↔ k ∉ l.map Prod.fst := by
  induction l with
  | nil => simp [alookup]
  | cons p rest ih =>
      obtain ⟨a, b⟩ := p
      by_cases h : a = k
      · subst h; simp [alookup]
      · simp only [alookup, if_neg h, List.map_cons, List.mem_cons, not_or]
        rw [ih]
        exact ⟨fun hn => ⟨fun hk => h hk.symm, hn⟩, fun hn => hn.2⟩

theorem alookup_isSome_iff {β : Type} (l : List (String × β)) (k : String) :
    (alookup l k).isSome ↔ k ∈ l.map Prod.fst := by
  rcases h : alookup l k with _ | v
  · simpa using (alookup_eq_none_iff l k).mp h
  · simp only [Option.isSome_some, true_iff]
    by_contra hmem
    rw [(alookup_eq_none_iff l k).mpr hmem] at h
    exact Option.noConfusion h

theorem alookup_some_mem {β : Type} {l : List (String × β)} {k : String} {v : β}
    (h : alookup l k = some v) : (k, v) ∈ l := by
  induction l with
  | nil => exact absurd h (by simp [alookup])
  | cons p rest ih =>
      obtain ⟨a, b⟩ := p
      by_cases ha : a = k
      · subst ha
        have h' : b = v := by simpa [alookup] using h
        subst h'
        exact List.mem_cons_self _ _
      · simp only [alookup, if_neg ha] at h
        exact List.mem_cons_of_mem _ (ih h)

theorem mem_alookup {β : Type} {l : List (String × β)} {k : String} {v : β}
    (hmem : (k, v) ∈ l) (hnd : (l.map Prod.fst).Nodup) : alookup l k = some v := by
  induction l with
  | nil => simp at hmem
  | cons p rest ih =>
      obtain ⟨a, b⟩ := p
      simp only [List.map_cons, List.nodup_cons] at hnd
      rcases List.mem_cons.mp hmem with heq | htail
      · obtain ⟨rfl, rfl⟩ := Prod.mk.injEq .. ▸ heq
        simp [alookup]
      · have hk : a ≠ k := by
          rintro rfl
          exact hnd.1 (List.mem_map.mpr ⟨(a, v), htail, rfl⟩)
        simp [alookup, hk, ih htail hnd.2]

theorem nodup_append_singleton {α : Type} {l : List α} {a : α}
    (h : l.Nodup) (ha : a ∉ l) : (l ++ [a]).Nodup := by
  rw [List.nodup_append]
  refine ⟨h, List.nodup_singleton a, ?_⟩
  intro x hx hx1
  rw [List.mem_singleton] at hx1
  subst hx1
  exact ha hx

/-! ### addPosting lemmas -/

theorem alookup_addPosting (ps : Postings) (id i : String) :
    alookup (addPosting ps id) i =
      (if i = id then some ((alookup ps id).getD 0 + 1) else alookup ps i) := by
  induction ps with
  | nil =>
      by_cases h : i = id
      · subst h; simp [addPosting, alookup]
      · simp [addPosting, alookup, h, Ne.symm h]
  | cons p rest ih =>
      obtain ⟨a, c⟩ := p
      by_cases ha : a = id
      · subst ha
        by_cases hi : i = a
        · subst hi; simp [addPosting, alookup]
        · simp [addPosting, alookup, hi, Ne.symm hi]
      · by_cases hi : a = i
        · subst hi; simp [addPosting, alookup, ha]
        · simp [addPosting, alookup, ha, hi, ih]

theorem keys_addPosting (ps : Postings) (id : String) :
    (addPosting ps id).map Prod.fst =
      (if id ∈ ps.map Prod.fst then ps.map Prod.fst else ps.map Prod.fst ++ [id]) := by
  induction ps with
  | nil => simp [addPosting]
  | cons p rest ih =>
      obtain ⟨a, c⟩ := p
      by_cases ha : a = id
      · subst ha; simp [addPosting]
      · have : ¬ id = a := fun h => ha h.symm
        by_cases hmem : id ∈ rest.map Prod.fst <;>
          simp [addPosting, ha, hmem, ih, this]

theorem addPosting_ne_nil (ps : Postings) (id : String) : addPosting ps id ≠ [] := by
  cases ps with
  | nil => simp [addPosting]
  | cons p rest =>
      obtain ⟨a, c⟩ := p
      by_cases h : a = id <;> simp [addPosting, h]

theorem nodup_keys_addPosting {ps : Postings} (h : (ps.map Prod.fst).Nodup) (id : String) :
    ((addPosting ps id).map Prod.fst).Nodup := by
  rw [keys_addPosting]
  by_cases hmem : id ∈ ps.map Prod.fst
  · simpa [hmem] using h
  · simpa [hmem] using nodup_append_singleton h hmem

/-! ### record_term and update_inverted_index lemmas -/

theorem alookup_record_term (idx : List (String × Postings)) (term doc_id t : String) :
    alookup (record_term idx term doc_id) t =
      (if t = term then some (addPosting ((alookup idx term).getD []) doc_id)
       else alookup idx t) := by
  induction idx with
  | nil =>
      by_cases h : t = term
      · subst h; simp [record_term, alookup]
      · simp [record_term, alookup, h, Ne.symm h]
  | cons p rest ih =>
      obtain ⟨a, ps⟩ := p
      by_cases ha : a = term
      · subst ha
        by_cases ht : t = a
        · subst ht; simp [record_term, alookup]
        · simp [record_term, alookup, ht, Ne.symm ht]
      · by_cases ht : a = t
        · subst ht
          simp [record_term, alookup, ha, fun h => ha h]
        · simp [record_term, alookup, ha, ht, ih]

theorem keys_record_term (idx : List (String × Postings)) (term doc_id : String) :
    (record_term idx term doc_id).map Prod.fst =
      (if term ∈ idx.map Prod.fst then idx.map Prod.fst
       else idx.map Prod.fst ++ [term]) := by
  induction idx with
  | nil => simp [record_term]
  | cons p rest ih =>
      obtain ⟨a, ps⟩ := p
      by_cases ha : a = term
      · subst ha; simp [record_term]
      · have : ¬ term = a := fun h => ha h.symm
        by_cases hmem : term ∈ rest.map Prod.fst <;>
          simp [record_term, ha, hmem, ih, this]

theorem record_term_mem (idx : List (String × Postings)) (term doc_id : String)
    {p : String × Postings} (hp : p ∈ record_term idx term doc_id) :
    p ∈ idx ∨ (∃ q ∈ idx, p = (q.1, addPosting q.2 doc_id)) ∨
      p = (term, addPosting [] doc_id) := by
  induction idx with
  | nil =>
      simp only [record_term, List.mem_singleton] at hp
      exact Or.inr (Or.inr hp)
  | cons q rest ih =>
      obtain ⟨a, ps⟩ := q
      by_cases ha : a = term
      · subst ha
        have hrw : record_term ((a, ps) :: rest) a doc_id =
            (a, addPosting ps doc_id) :: rest := by simp [record_term]
        rw [hrw] at hp
        rcases List.mem_cons.mp hp with heq | hmem
        · exact Or.inr (Or.inl ⟨(a, ps), List.mem_cons_self _ _, heq⟩)
        · exact Or.inl (List.mem_cons_of_mem _ hmem)
      · have hrw : record_term ((a, ps) :: rest) term doc_id =
            (a, ps) :: record_term rest term doc_id := by simp [record_term, ha]
        rw [hrw] at hp
        rcases List.mem_cons.mp hp with heq | hmem
        · exact Or.inl (heq ▸ List.mem_cons_self _ _)
        · rcases ih hmem with h1 | h2 | h3
          · exact Or.inl (List.mem_cons_of_mem _ h1)
          · obtain ⟨q, hq, hq2⟩ := h2
            exact Or.inr (Or.inl ⟨q, List.mem_cons_of_mem _ hq, hq2⟩)
          · exact Or.inr (Or.inr h3)

theorem plook_record_term (idx : List (String × Postings)) (term doc_id t i : String) :
    plook (record_term idx term doc_id) t i =
      (if t = term ∧ i = doc_id then some ((plook idx t i).getD 0 + 1)
       else plook idx t i) := by
  unfold plook
  rw [alookup_record_term]
  by_cases ht : t = term
  · subst ht
    rw [if_pos rfl, Option.getD_some, alookup_addPosting]
    by_cases hi : i = doc_id <;> simp [hi]
  · simp [ht]

theorem plook_update (idx : List (String × Postings)) (doc_id : String)
    (ts : List String) (t i : String) :
    plook (ts.foldl (fun acc term => record_term acc term doc_id) idx) t i =
      (if i = doc_id ∧ ts.count t ≠ 0 then some ((plook idx t i).getD 0 + ts.count t)
       else plook idx t i) := by
  induction ts generalizing idx with
  | nil => simp
  | cons a rest ih =>
      simp only [List.foldl_cons, List.count_cons]
      rw [ih, plook_record_term]
      by_cases hi : i = doc_id
      · subst hi
        by_cases ht : t = a
        · subst ht
          by_cases hn : rest.count t = 0
          · simp [hn]
          · simp only [hn, beq_self_eq_true, if_true, ne_eq, not_false_eq_true,
              and_self, if_pos, Option.getD_some]
            simp [hn]
            omega
        · have hbeq : (a == t) = false := beq_eq_false_iff_ne.mpr (fun h => ht h.symm)
          simp [ht, hbeq]
      · simp [hi]

theorem plook_update_inverted_index (idx : List (String × Postings)) (d : Document)
    (t i : String) :
    plook (update_inverted_index idx d) t i =
      (if i = d.doc_id ∧ d.terms.count t ≠ 0 then
        some ((plook idx t i).getD 0 + d.terms.count t)
       else plook idx t i) := by
  unfold update_inverted_index
  rw [plook_update]

theorem keys_update_inverted_index (idx : List (String × Postings)) (d : Document)
    (h : (idx.map Prod.fst).Nodup) :
    ((update_inverted_index idx d).map Prod.fst).Nodup := by
  unfold update_inverted_index
  induction d.terms generalizing idx with
  | nil => exact h
  | cons a rest ih =>
      simp only [List.foldl_cons]
      apply ih
      rw [keys_record_term]
      by_cases hmem : a ∈ idx.map Prod.fst
      · simpa [hmem] using h
      · simpa [hmem] using nodup_append_singleton h hmem

theorem update_inverted_index_entries (idx : List (String × Postings)) (d : Document)
    (P : Postings → Prop) (hP : ∀ ps, P ps → P (addPosting ps d.doc_id))
    (hnil : P (addPosting [] d.doc_id)) (h : ∀ p ∈ idx, P p.2) :
    ∀ p ∈ update_inverted_index idx d, P p.2 := by
  unfold update_inverted_index
  induction d.terms generalizing idx with
  | nil => exact h
  | cons a rest ih =>
      simp only [List.foldl_cons]
      apply ih
      intro p hp
      rcases record_term_mem idx a d.doc_id hp with h1 | h2 | h3
      · exact h p h1
      · obtain ⟨q, hq, rfl⟩ := h2
        exact hP q.2 (h q hq)
      · rw [h3]
        exact hnil

/-! ### The invariant holds in every reachable state -/

theorem postings_plook (e : IREngine) (term id : String) :
    alookup (e.postings term) id = plook e.inverted_index term id := rfl

theorem inv_init : Inv IREngine.init := by
  refine ⟨by simp [IREngine.init], by simp [IREngine.init], by simp [IREngine.init],
    by simp [IREngine.init], by simp [IREngine.init], ?_⟩
  intro term id
  simp [IREngine.init, IREngine.postings, alookup, docTermCount]

theorem inv_add_document (e : IREngine) (d : Document) (h : Inv e) :
    Inv (add_document e d).2 := by
  by_cases hdup : (alookup e.documents d.doc_id).isNone
  · have hfresh : alookup e.documents d.doc_id = none := Option.isNone_iff_eq_none.mp hdup
    have hnotmem : d.doc_id ∉ e.documents.map Prod.fst :=
      (alookup_eq_none_iff _ _).mp hfresh
    have hstep : (add_document e d).2 =
        ⟨e.documents ++ [(d.doc_id, d)], update_inverted_index e.inverted_index d⟩ := by
      unfold add_document
      rw [if_pos hdup]
    rw [hstep]
    constructor
    · simpa using nodup_append_singleton h.docs_nodup hnotmem
    · intro p hp
      rcases List.mem_append.mp hp with hold | hnew
      · exact h.doc_key p hold
      · rw [List.mem_singleton] at hnew
        subst hnew; rfl
    · exact keys_update_inverted_index _ _ h.idx_nodup
    · exact update_inverted_index_entries _ _ (fun ps => (ps.map Prod.fst).Nodup)
        (fun ps hps => nodup_keys_addPosting hps _) (by simp [addPosting]) h.post_nodup
    · exact update_inverted_index_entries _ _ (fun ps => ps ≠ [])
        (fun ps _ => addPosting_ne_nil ps _) (addPosting_ne_nil [] _) h.post_nonempty
    · intro term id
      rw [postings_plook]
      show plook (update_inverted_index e.inverted_index d) term id = _
      rw [plook_update_inverted_index]
      have hplook := h.lookup_eq term id
      rw [postings_plook] at hplook
      have hcount : docTermCount ⟨e.documents ++ [(d.doc_id, d)],
          update_inverted_index e.inverted_index d⟩ id term =
          (if id = d.doc_id then d.terms.count term else docTermCount e id term) := by
        unfold docTermCount
        simp only
        rw [alookup_append]
        by_cases hi : id = d.doc_id
        · subst hi
          rw [hfresh]
          simp [alookup]
        · have hii : ¬ d.doc_id = id := fun hh => hi hh.symm
          rcases hl : alookup e.documents id with _ | v
          · simp [alookup, hii, hi]
          · simp [hi]
      rw [hcount]
      by_cases hi : id = d.doc_id
      · subst hi
        have hold0 : docTermCount e d.doc_id term = 0 := by
          unfold docTermCount; rw [hfresh]
        have hpl : plook e.inverted_index term d.doc_id = none := by
          rw [hplook, if_pos hold0]
        by_cases hc : d.terms.count term = 0 <;> simp [hpl, hc]
      · simp [hi, hplook]
  · have hstep : (add_document e d).2 = e := by
      unfold add_document
      rw [if_neg hdup]
    rw [hstep]
    exact h

theorem reachable_inv (e : IREngine) (h : Reachable e) : Inv e := by
  induction h with
  | init => exact inv_init
  | add e d _ ih => exact inv_add_document e d ih

/-! ### Consequences of the invariant: index and IDF facts -/

theorem postings_keys_nodup (e : IREngine) (h : Inv e) (term : String) :
    ((e.postings term).map Prod.fst).Nodup := by
  unfold IREngine.postings
  rcases hl : alookup e.inverted_index term with _ | ps
  · simp
  · exact h.post_nodup (term, ps) (alookup_some_mem hl)

theorem docTermCount_ne_zero {e : IREngine} {id term : String}
    (h : docTermCount e id term ≠ 0) :
    ∃ dd, alookup e.documents id = some dd ∧ term ∈ dd.terms := by
  unfold docTermCount at h
  rcases hl : alookup e.documents id with _ | dd
  · rw [hl] at h; exact absurd rfl h
  · rw [hl] at h
    exact ⟨dd, rfl, List.count_pos_iff.mp (Nat.pos_of_ne_zero h)⟩

theorem docTermCount_of_mem {e : IREngine} (h : Inv e) {p : String × Document}
    (hp : p ∈ e.documents) {term : String} (hterm : term ∈ p.2.terms) :
    docTermCount e p.1 term ≠ 0 := by
  have hlk : alookup e.documents p.1 = some p.2 := mem_alookup hp h.docs_nodup
  unfold docTermCount
  rw [hlk]
  show List.count term p.2.terms ≠ 0
  have := List.count_pos_iff.mpr hterm
  omega

theorem term_key_iff (e : IREngine) (h : Inv e) (term : String) :
    (alookup e.inverted_index term).isSome ↔ ∃ p ∈ e.documents, term ∈ p.2.terms := by
  constructor
  · intro hs
    rcases hsome : alookup e.inverted_index term with _ | ps
    · rw [hsome] at hs; simp at hs
    · have hmem : (term, ps) ∈ e.inverted_index := alookup_some_mem hsome
      have hne : ps ≠ [] := h.post_nonempty _ hmem
      obtain ⟨q, hq⟩ := List.exists_mem_of_ne_nil ps hne
      have hnodup : (ps.map Prod.fst).Nodup := h.post_nodup _ hmem
      have hps : e.postings term = ps := by
        unfold IREngine.postings; rw [hsome]; rfl
      have hlk : alookup (e.postings term) q.1 = some q.2 := by
        rw [hps]; exact mem_alookup hq hnodup
      have hle := h.lookup_eq term q.1
      rw [hlk] at hle
      by_cases hz : docTermCount e q.1 term = 0
      · rw [if_pos hz] at hle; exact absurd hle (by simp)
      · obtain ⟨dd, hdd, hmemt⟩ := docTermCount_ne_zero hz
        exact ⟨(q.1, dd), alookup_some_mem hdd, hmemt⟩
  · rintro ⟨p, hp, hterm⟩
    have hcount := docTermCount_of_mem h hp hterm
    have hle := h.lookup_eq term p.1
    rw [if_neg hcount] at hle
    rcases hsome : alookup e.inverted_index term with _ | ps
    · exfalso
      have hps : e.postings term = [] := by
        unfold IREngine.postings; rw [hsome]; rfl
      rw [hps] at hle
      exact absurd hle (by simp [alookup])
    · simp [hsome]

theorem mem_postings_keys_iff (e : IREngine) (h : Inv e) (term i : String) :
    i ∈ (e.postings term).map Prod.fst ↔ docTermCount e i term ≠ 0 := by
  rw [← alookup_isSome_iff]
  have hle := h.lookup_eq term i
  by_cases hz : docTermCount e i term = 0
  · rw [if_pos hz] at hle
    simp [hle, hz]
  · rw [if_neg hz] at hle
    simp [hle, hz]

theorem df_code_eq_spec (e : IREngine) (h : Inv e) (term : String) :
    (e.postings term).length = df_spec e term := by
  have h1 : ((e.postings term).map Prod.fst).Nodup := postings_keys_nodup e h term
  have h2 : (((e.documents.filter (fun p => decide (term ∈ p.2.terms))).map Prod.fst)).Nodup :=
    h.docs_nodup.sublist ((List.filter_sublist _).map Prod.fst)
  have hmemiff : ∀ i, i ∈ (e.postings term).map Prod.fst ↔
      i ∈ (e.documents.filter (fun p => decide (term ∈ p.2.terms))).map Prod.fst := by
    intro i
    rw [mem_postings_keys_iff e h term i]
    constructor
    · intro hz
      obtain ⟨dd, hdd, hmemt⟩ := docTermCount_ne_zero hz
      exact List.mem_map.mpr ⟨(i, dd),
        List.mem_filter.mpr ⟨alookup_some_mem hdd, by simpa using hmemt⟩, rfl⟩
    · intro hmem
      obtain ⟨p, hpf, hpi⟩ := List.mem_map.mp hmem
      obtain ⟨hpd, hpt⟩ := List.mem_filter.mp hpf
      exact hpi ▸ docTermCount_of_mem h hpd (by simpa using hpt)
  have hperm := (List.perm_ext_iff_of_nodup h1 h2).mpr hmemiff
  have := hperm.length_eq
  simpa [df_spec] using this

theorem df_spec_le (e : IREngine) (term : String) :
    df_spec e term ≤ e.documents.length :=
  List.length_filter_le _ _

theorem postings_length_pos (e : IREngine) (h : Inv e) {term : String}
    (hs : (alookup e.inverted_index term).isSome) : 0 < (e.postings term).length := by
  rcases hsome : alookup e.inverted_index term with _ | ps
  · rw [hsome] at hs; simp at hs
  · have hps : e.postings term = ps := by
      unfold IREngine.postings; rw [hsome]; rfl
    rw [hps]
    exact List.length_pos.mpr (h.post_nonempty _ (alookup_some_mem hsome))

theorem idf_eq_spec (e : IREngine) (h : Inv e) (term : String) :
    _calculate_term_idf e term = idf_spec e term := by
  unfold _calculate_term_idf idf_spec
  by_cases hs : (alookup e.inverted_index term).isSome
  · have hpos : 0 < (e.postings term).length := postings_length_pos e h hs
    have hdf := df_code_eq_spec e h term
    rw [if_pos hs, ← hdf, if_neg (by omega)]
  · have hdf0 : df_spec e term = 0 := by
      by_contra hne
      have hex : ∃ p ∈ e.documents, term ∈ p.2.terms := by
        have : e.documents.filter (fun p => decide (term ∈ p.2.terms)) ≠ [] := by
          intro hnil
          rw [df_spec, hnil] at hne
          exact hne rfl
        obtain ⟨p, hp⟩ := List.exists_mem_of_ne_nil _ this
        obtain ⟨hpd, hpt⟩ := List.mem_filter.mp hp
        exact ⟨p, hpd, by simpa using hpt⟩
      exact hs ((term_key_iff e h term).mpr hex)
    rw [if_neg hs, if_pos hdf0]

theorem one_le_idf (e : IREngine) (h : Inv e) (term : String) :
    1 ≤ _calculate_term_idf e term := by
  unfold _calculate_term_idf
  by_cases hs : (alookup e.inverted_index term).isSome
  · rw [if_pos hs]
    have hpos : 0 < (e.postings term).length := postings_length_pos e h hs
    have hle : (e.postings term).length ≤ e.documents.length :=
      (df_code_eq_spec e h term) ▸ df_spec_le e term
    have hq : (1 : ℝ) ≤ (e.documents.length : ℝ) / ((e.postings term).length : ℝ) := by
      rw [one_le_div (by exact_mod_cast hpos)]
      exact_mod_cast hle
    have := Real.log_nonneg hq
    show (1 : ℝ) ≤ 1 + Real.log ((e.documents.length : ℝ) / ((e.postings term).length : ℝ))
    linarith
  · rw [if_neg hs]

/-! ### Relevant doc ids and the query vector -/

theorem mem_dedup_fold (ps : Postings) (acc : List String) (i : String) :
    i ∈ ps.foldl (fun acc2 p => if p.1 ∈ acc2 then acc2 else acc2 ++ [p.1]) acc ↔
      i ∈ acc ∨ i ∈ ps.map Prod.fst := by
  induction ps generalizing acc with
  | nil => simp
  | cons p rest ih =>
      simp only [List.foldl_cons, List.map_cons, List.mem_cons]
      rw [ih]
      by_cases hmem : p.1 ∈ acc
      · rw [if_pos hmem]
        constructor
        · rintro (h1 | h2)
          · exact Or.inl h1
          · exact Or.inr (Or.inr h2)
        · rintro (h1 | h2 | h3)
          · exact Or.inl h1
          · exact Or.inl (h2 ▸ hmem)
          · exact Or.inr h3
      · rw [if_neg hmem]
        constructor
        · rintro (h1 | h2)
          · rcases List.mem_append.mp h1 with ha | hb
            · exact Or.inl ha
            · exact Or.inr (Or.inl (List.mem_singleton.mp hb))
          · exact Or.inr (Or.inr h2)
        · rintro (h1 | h2 | h3)
          · exact Or.inl (List.mem_append.mpr (Or.inl h1))
          · exact Or.inl (List.mem_append.mpr (Or.inr (List.mem_singleton.mpr h2)))
          · exact Or.inr h3

theorem mem_relevant_fold (e : IREngine) (ts : List String) (acc : List String) (i : String) :
    i ∈ ts.foldl (fun acc term =>
        match alookup e.inverted_index term with
        | some ps => ps.foldl (fun acc2 p => if p.1 ∈ acc2 then acc2 else acc2 ++ [p.1]) acc
        | none => acc) acc ↔
      i ∈ acc ∨ ∃ t ∈ ts, i ∈ (e.postings t).map Prod.fst := by
  induction ts generalizing acc with
  | nil => simp
  | cons a rest ih =>
      simp only [List.foldl_cons]
      rcases hsome : alookup e.inverted_index a with _ | ps
      · rw [ih]
        have hpost : e.postings a = [] := by
          unfold IREngine.postings; rw [hsome]; rfl
        constructor
        · rintro (h1 | h2)
          · exact Or.inl h1
          · obtain ⟨t, ht, hi⟩ := h2
            exact Or.inr ⟨t, List.mem_cons_of_mem _ ht, hi⟩
        · rintro (h1 | ⟨t, ht, hi⟩)
          · exact Or.inl h1
          · rcases List.mem_cons.mp ht with rfl | ht'
            · rw [hpost] at hi; simp at hi
            · exact Or.inr ⟨t, ht', hi⟩
      · rw [ih, mem_dedup_fold]
        have hpost : e.postings a = ps := by
          unfold IREngine.postings; rw [hsome]; rfl
        constructor
        · rintro ((h1 | h2) | h3)
          · exact Or.inl h1
          · exact Or.inr ⟨a, List.mem_cons_self _ _, hpost ▸ h2⟩
          · obtain ⟨t, ht, hi⟩ := h3
            exact Or.inr ⟨t, List.mem_cons_of_mem _ ht, hi⟩
        · rintro (h1 | ⟨t, ht, hi⟩)
          · exact Or.inl (Or.inl h1)
          · rcases List.mem_cons.mp ht with rfl | ht'
            · exact Or.inl (Or.inr (hpost ▸ hi))
            · exact Or.inr ⟨t, ht', hi⟩

theorem mem_relevant_iff (e : IREngine) (ts : List String) (i : String) :
    i ∈ _get_relevant_doc_ids e ts ↔ ∃ t ∈ ts, i ∈ (e.postings t).map Prod.fst := by
  unfold _get_relevant_doc_ids
  rw [mem_relevant_fold]
  simp

theorem alookup_foldl_addPosting (ts : List String) (ps : Postings) (t : String) :
    alookup (ts.foldl (fun acc x => addPosting acc x) ps) t =
      (if ts.count t = 0 then alookup ps t
       else some ((alookup ps t).getD 0 + ts.count t)) := by
  induction ts generalizing ps with
  | nil => simp
  | cons a rest ih =>
      simp only [List.foldl_cons, List.count_cons]
      rw [ih, alookup_addPosting]
      by_cases ht : t = a
      · subst ht
        by_cases hn : rest.count t = 0
        · simp [hn]
        · simp only [beq_self_eq_true, if_true]
          simp [hn]
          omega
      · have hbeq : (a == t) = false := beq_eq_false_iff_ne.mpr (fun h => ht h.symm)
        simp [ht, hbeq]

theorem query_vector_eq (e : IREngine) (ts : List String) :
    calculate_tf_idf_for_query e ts =
      ts.map (fun t => ((ts.count t : ℝ) / (ts.length : ℝ)) * _calculate_term_idf e t) := by
  unfold calculate_tf_idf_for_query
  apply List.map_congr_left
  intro t ht
  have hcount : ts.count t ≠ 0 := by
    have := List.count_pos_iff.mpr ht
    omega
  rw [alookup_foldl_addPosting, if_neg hcount]
  simp [alookup]

/-! ### Dot products, norms, Cauchy-Schwarz -/

theorem dotList_self_nonneg (u : List ℝ) : 0 ≤ dotList u u := by
  induction u with
  | nil => simp [dotList]
  | cons a rest ih =>
      have : dotList (a :: rest) (a :: rest) = a * a + dotList rest rest := by
        simp [dotList]
      rw [this]
      nlinarith [mul_self_nonneg a]

theorem dotList_nonneg {u v : List ℝ} (hu : ∀ x ∈ u, 0 ≤ x) (hv : ∀ y ∈ v, 0 ≤ y) :
    0 ≤ dotList u v := by
  induction u generalizing v with
  | nil => simp [dotList]
  | cons a rest ih =>
      cases v with
      | nil => simp [dotList]
      | cons b w =>
          have hstep : dotList (a :: rest) (b :: w) = a * b + dotList rest w := by
            simp [dotList]
          rw [hstep]
          have h1 : 0 ≤ a * b :=
            mul_nonneg (hu a (List.mem_cons_self _ _)) (hv b (List.mem_cons_self _ _))
          have h2 : 0 ≤ dotList rest w :=
            ih (fun x hx => hu x (List.mem_cons_of_mem _ hx))
              (fun y hy => hv y (List.mem_cons_of_mem _ hy))
          linarith

theorem dotList_self_pos {u : List ℝ} {x0 : ℝ} (hu : ∀ x ∈ u, 0 ≤ x)
    (hmem : x0 ∈ u) (hpos : 0 < x0) : 0 < dotList u u := by
  induction u with
  | nil => simp at hmem
  | cons a rest ih =>
      have hstep : dotList (a :: rest) (a :: rest) = a * a + dotList rest rest := by
        simp [dotList]
      rw [hstep]
      rcases List.mem_cons.mp hmem with rfl | hmem'
      · nlinarith [dotList_self_nonneg rest]
      · have := ih (fun x hx => hu x (List.mem_cons_of_mem _ hx)) hmem'
        nlinarith [mul_self_nonneg a]

theorem list_cauchy_schwarz (u : List ℝ) :
    ∀ v : List ℝ, (dotList u v) ^ 2 ≤ dotList u u * dotList v v := by
  induction u with
  | nil => intro v; simp [dotList]
  | cons a rest ih =>
      intro v
      cases v with
      | nil =>
          have h1 : dotList (a :: rest) ([] : List ℝ) = 0 := by simp [dotList]
          have h2 : dotList ([] : List ℝ) ([] : List ℝ) = 0 := by simp [dotList]
          rw [h1, h2]
          simp
      | cons b w =>
          have hA : 0 ≤ dotList rest rest := dotList_self_nonneg rest
          have hB : 0 ≤ dotList w w := dotList_self_nonneg w
          have hIH := ih w
          have hc1 : dotList (a :: rest) (b :: w) = a * b + dotList rest w := by
            simp [dotList]
          have hc2 : dotList (a :: rest) (a :: rest) = a * a + dotList rest rest := by
            simp [dotList]
          have hc3 : dotList (b :: w) (b :: w) = b * b + dotList w w := by
            simp [dotList]
          rw [hc1, hc2, hc3]
          rcases eq_or_lt_of_le hB with hB0 | hBpos
          · have hS2 : dotList rest w ^ 2 ≤ 0 := by nlinarith
            have hS0 : dotList rest w = 0 := by nlinarith [sq_nonneg (dotList rest w)]
            rw [hS0, ← hB0]
            nlinarith [mul_nonneg hA (mul_self_nonneg b)]
          · nlinarith [sq_nonneg (a * dotList w w - b * dotList rest w),
              mul_nonneg (sq_nonneg b) (sub_nonneg.2 hIH),
              mul_nonneg hBpos.le (sub_nonneg.2 hIH)]

theorem dotList_le_norms (u v : List ℝ) : dotList u v ≤ normList u * normList v := by
  have hcs := list_cauchy_schwarz u v
  have h1 : dotList u v ≤ |dotList u v| := le_abs_self _
  have h2 : |dotList u v| = Real.sqrt ((dotList u v) ^ 2) := (Real.sqrt_sq_eq_abs _).symm
  have h3 : Real.sqrt ((dotList u v) ^ 2) ≤
      Real.sqrt (dotList u u * dotList v v) := Real.sqrt_le_sqrt hcs
  have h4 : Real.sqrt (dotList u u * dotList v v) = normList u * normList v := by
    unfold normList
    exact Real.sqrt_mul (dotList_self_nonneg u) _
  linarith [h1, h2 ▸ h3, h4 ▸ (h2 ▸ h3)]

theorem normList_pos {u : List ℝ} {x0 : ℝ} (hu : ∀ x ∈ u, 0 ≤ x)
    (hmem : x0 ∈ u) (hpos : 0 < x0) : 0 < normList u :=
  Real.sqrt_pos.mpr (dotList_self_pos hu hmem hpos)

theorem similarity_bounds {u v : List ℝ} (hu0 : ∀ x ∈ u, 0 ≤ x) (hv0 : ∀ y ∈ v, 0 ≤ y)
    (hu : 0 < normList u) (hv : 0 < normList v) :
    0 ≤ dotList u v / (normList u * normList v) ∧
      dotList u v / (normList u * normList v) ≤ 1 := by
  have hdenom : 0 < normList u * normList v := mul_pos hu hv
  constructor
  · exact div_nonneg (dotList_nonneg hu0 hv0) hdenom.le
  · rw [div_le_one hdenom]
    exact dotList_le_norms u v

/-! ### The document vector and scoring of a candidate -/

theorem document_vector_entry_eq (e : IREngine) (h : Inv e) {id : String} {dd : Document}
    (hdd : alookup e.documents id = some dd) (hterms : dd.terms.length ≠ 0) (qt : String) :
    document_vector_entry e dd qt =
      some ((docTermCount e id qt : ℝ) / (dd.terms.length : ℝ) *
        _calculate_term_idf e qt) := by
  have hkey : dd.doc_id = id := h.doc_key (id, dd) (alookup_some_mem hdd)
  unfold document_vector_entry
  rcases hsome : alookup e.inverted_index qt with _ | ps
  · have hz : docTermCount e id qt = 0 := by
      by_contra hne
      obtain ⟨dd', hdd', hmem⟩ := docTermCount_ne_zero hne
      rw [hdd] at hdd'
      have hdd2 : dd = dd' := Option.some.inj hdd'
      subst hdd2
      have : (alookup e.inverted_index qt).isSome :=
        (term_key_iff e h qt).mpr ⟨(id, dd), alookup_some_mem hdd, hmem⟩
      rw [hsome] at this
      simp at this
    simp [hz]
  · have hps : e.postings qt = ps := by
      unfold IREngine.postings; rw [hsome]; rfl
    show (if dd.terms.length = 0 then (none : Option ℝ)
        else some (((alookup ps dd.doc_id).getD 0 : ℝ) / (dd.terms.length : ℝ) *
          _calculate_term_idf e qt)) =
      some ((docTermCount e id qt : ℝ) / (dd.terms.length : ℝ) * _calculate_term_idf e qt)
    rw [if_neg hterms, hkey]
    have hlk := h.lookup_eq qt id
    rw [hps] at hlk
    rw [hlk]
    by_cases hz : docTermCount e id qt = 0
    · rw [if_pos hz]; simp [hz]
    · rw [if_neg hz]; simp

theorem build_document_vector_eq (e : IREngine) (h : Inv e) {id : String} {dd : Document}
    (hdd : alookup e.documents id = some dd) (hterms : dd.terms.length ≠ 0)
    (ts : List String) :
    build_document_vector e dd ts = some (doc_vector_spec e id dd ts) := by
  induction ts with
  | nil => simp [build_document_vector, doc_vector_spec]
  | cons qt rest ih =>
      simp [build_document_vector, document_vector_entry_eq e h hdd hterms, ih,
        doc_vector_spec]

theorem score_document_eq (e : IREngine) (h : Inv e) (ts : List String) (qvec : List ℝ)
    {id : String} {dd : Document} (hdd : alookup e.documents id = some dd)
    (hterms : dd.terms.length ≠ 0) (hq : normList qvec ≠ 0)
    (hd : normList (doc_vector_spec e id dd ts) ≠ 0) :
    score_document e ts qvec id =
      some (dd, dotList qvec (doc_vector_spec e id dd ts) /
        (normList qvec * normList (doc_vector_spec e id dd ts))) := by
  unfold score_document
  rw [hdd]
  have hbv := build_document_vector_eq e h hdd hterms ts
  simp [hbv, cosine_distance, hq, hd]

theorem relevant_doc_properties (e : IREngine) (h : Inv e) {ts : List String} {i : String}
    (hi : i ∈ _get_relevant_doc_ids e ts) :
    ∃ dd t, alookup e.documents i = some dd ∧ t ∈ ts ∧ docTermCount e i t ≠ 0 ∧
      dd.terms.length ≠ 0 := by
  obtain ⟨t, ht, hkeys⟩ := (mem_relevant_iff e ts i).mp hi
  have hz := (mem_postings_keys_iff e h t i).mp hkeys
  obtain ⟨dd, hdd, hmem⟩ := docTermCount_ne_zero hz
  have hz' : docTermCount e i t ≠ 0 := hz
  refine ⟨dd, t, hdd, ht, hz', ?_⟩
  intro hlen
  rw [List.length_eq_zero] at hlen
  rw [hlen] at hmem
  simp at hmem

theorem doc_vector_spec_nonneg (e : IREngine) (h : Inv e) (id : String) (dd : Document)
    (ts : List String) : ∀ x ∈ doc_vector_spec e id dd ts, 0 ≤ x := by
  intro x hx
  obtain ⟨t, _, rfl⟩ := List.mem_map.mp hx
  have hidf : (0 : ℝ) ≤ _calculate_term_idf e t := le_trans zero_le_one (one_le_idf e h t)
  exact mul_nonneg (div_nonneg (by positivity) (by positivity)) hidf

theorem doc_vector_spec_pos (e : IREngine) (h : Inv e) {id : String} {dd : Document}
    {t : String} {ts : List String} (ht : t ∈ ts) (hz : docTermCount e id t ≠ 0)
    (hterms : dd.terms.length ≠ 0) :
    ∃ x ∈ doc_vector_spec e id dd ts, 0 < x := by
  refine ⟨(docTermCount e id t : ℝ) / (dd.terms.length : ℝ) * _calculate_term_idf e t,
    List.mem_map.mpr ⟨t, ht, rfl⟩, ?_⟩
  have hidf := one_le_idf e h t
  have hcount : (0 : ℝ) < (docTermCount e id t : ℝ) := by
    exact_mod_cast Nat.pos_of_ne_zero hz
  have hlen : (0 : ℝ) < (dd.terms.length : ℝ) := by
    exact_mod_cast Nat.pos_of_ne_zero hterms
  have := div_pos hcount hlen
  nlinarith

theorem query_vector_nonneg (e : IREngine) (h : Inv e) (ts : List String) :
    ∀ x ∈ calculate_tf_idf_for_query e ts, 0 ≤ x := by
  rw [query_vector_eq]
  intro x hx
  obtain ⟨t, _, rfl⟩ := List.mem_map.mp hx
  have hidf : (0 : ℝ) ≤ _calculate_term_idf e t := le_trans zero_le_one (one_le_idf e h t)
  exact mul_nonneg (div_nonneg (by positivity) (by positivity)) hidf

theorem query_vector_pos (e : IREngine) (h : Inv e) {ts : List String} {t : String}
    (ht : t ∈ ts) : ∃ x ∈ calculate_tf_idf_for_query e ts, 0 < x := by
  rw [query_vector_eq]
  refine ⟨((ts.count t : ℝ) / (ts.length : ℝ)) * _calculate_term_idf e t,
    List.mem_map.mpr ⟨t, ht, rfl⟩, ?_⟩
  have hidf := one_le_idf e h t
  have hcount : (0 : ℝ) < (ts.count t : ℝ) := by
    exact_mod_cast List.count_pos_iff.mpr ht
  have hlen : (0 : ℝ) < (ts.length : ℝ) := by
    exact_mod_cast List.length_pos.mpr (List.ne_nil_of_mem ht)
  have := div_pos hcount hlen
  nlinarith

theorem query_norm_pos (e : IREngine) (h : Inv e) {ts : List String} {t : String}
    (ht : t ∈ ts) : 0 < normList (calculate_tf_idf_for_query e ts) := by
  obtain ⟨x, hx, hpos⟩ := query_vector_pos e h ht
  exact normList_pos (query_vector_nonneg e h ts) hx hpos

theorem build_results_some (e : IREngine) (h : Inv e) (ts : List String)
    (ids : List String) (hids : ∀ i ∈ ids, i ∈ _get_relevant_doc_ids e ts) :
    ∃ rs, build_results e ts (calculate_tf_idf_for_query e ts) ids = some rs ∧
      rs.length = ids.length ∧
      (∀ p ∈ rs, 0 ≤ p.2 ∧ p.2 ≤ 1) ∧
      rs.map (fun p => p.1.doc_id) = ids := by
  induction ids with
  | nil => exact ⟨[], by simp [build_results], by simp, by simp, by simp⟩
  | cons i rest ih =>
      obtain ⟨rs', hrs', hlen', hbnd', hids'⟩ :=
        ih (fun j hj => hids j (List.mem_cons_of_mem _ hj))
      obtain ⟨dd, t, hdd, ht, hz, hterms⟩ :=
        relevant_doc_properties e h (hids i (List.mem_cons_self _ _))
      have hkey : dd.doc_id = i := h.doc_key (i, dd) (alookup_some_mem hdd)
      have hqn : 0 < normList (calculate_tf_idf_for_query e ts) := query_norm_pos e h ht
      obtain ⟨x, hx, hxpos⟩ := doc_vector_spec_pos e h ht hz hterms
      have hdn : 0 < normList (doc_vector_spec e i dd ts) :=
        normList_pos (doc_vector_spec_nonneg e h i dd ts) hx hxpos
      have hscore := score_document_eq e h ts (calculate_tf_idf_for_query e ts)
        hdd hterms hqn.ne' hdn.ne'
      have hbounds := similarity_bounds (query_vector_nonneg e h ts)
        (doc_vector_spec_nonneg e h i dd ts) hqn hdn
      refine ⟨(dd, dotList (calculate_tf_idf_for_query e ts) (doc_vector_spec e i dd ts) /
          (normList (calculate_tf_idf_for_query e ts) *
            normList (doc_vector_spec e i dd ts))) :: rs', ?_, ?_, ?_, ?_⟩
      · simp [build_results, hscore, hrs']
      · simp [hlen']
      · intro p hp
        rcases List.mem_cons.mp hp with rfl | hp'
        · exact hbounds
        · exact hbnd' p hp'
      · simp [hkey, hids']

theorem scored_results_some (e : IREngine) (h : Inv e) (ts : List String) :
    ∃ rs, scored_results e ts = some rs ∧
      rs.length = (_get_relevant_doc_ids e ts).length ∧
      (∀ p ∈ rs, 0 ≤ p.2 ∧ p.2 ≤ 1) ∧
      rs.map (fun p => p.1.doc_id) = _get_relevant_doc_ids e ts :=
  build_results_some e h ts (_get_relevant_doc_ids e ts) (fun _ hi => hi)

/-! ### Sorting, slicing, and the shape of query_by_terms -/

theorem rank_results_length (rs : List (Document × ℝ)) :
    (rank_results rs).length = rs.length := by
  unfold rank_results
  exact List.length_mergeSort rs

theorem rank_results_perm (rs : List (Document × ℝ)) :
    List.Perm (rank_results rs) rs := by
  unfold rank_results
  exact List.mergeSort_perm rs _

theorem rank_results_sorted (rs : List (Document × ℝ)) :
    (rank_results rs).Pairwise (fun a b : Document × ℝ => b.2 ≤ a.2) := by
  unfold rank_results
  have htrans : ∀ a b c : Document × ℝ, decide (b.2 ≤ a.2) = true →
      decide (c.2 ≤ b.2) = true → decide (c.2 ≤ a.2) = true := by
    intro a b c hab hbc
    simp only [decide_eq_true_eq] at *
    exact le_trans hbc hab
  have htotal : ∀ a b : Document × ℝ,
      (decide (b.2 ≤ a.2) || decide (a.2 ≤ b.2)) = true := by
    intro a b
    simp only [Bool.or_eq_true, decide_eq_true_eq]
    exact le_total b.2 a.2
  have h := @List.sorted_mergeSort (Document × ℝ)
    (fun a b => decide (b.2 ≤ a.2)) htrans htotal rs
  exact h.imp (fun hab => by simpa using hab)

theorem rank_results_of_sorted {rs : List (Document × ℝ)}
    (h : rs.Pairwise (fun a b : Document × ℝ => b.2 ≤ a.2)) : rank_results rs = rs := by
  unfold rank_results
  exact List.mergeSort_of_sorted (List.Pairwise.imp (fun hab => decide_eq_true hab) h)

theorem pyTake_length {α : Type} (l : List α) (k : Int) :
    (pyTake l k).length =
      (if k < 0 then ((l.length : Int) + k).toNat else min k.toNat l.length) := by
  unfold pyTake
  by_cases hk : k < 0
  · rw [if_pos hk, if_pos hk, List.length_take]
    omega
  · rw [if_neg hk, if_neg hk, List.length_take]

theorem query_by_terms_eq (e : IREngine) (ts : List String) (k : Int)
    {rs : List (Document × ℝ)} (hrs : scored_results e ts = some rs) :
    query_by_terms e ts k =
      some ((pyTake (pyTake (rank_results rs) (clamp_num rs.length k))
        (clamp_num rs.length k)).map (fun p => p.1.text)) := by
  unfold query_by_terms clamp_num
  rw [hrs]
  simp [Option.bind]

theorem query_by_terms_length (e : IREngine) (ts : List String) (k : Int)
    {rs : List (Document × ℝ)} (hrs : scored_results e ts = some rs) :
    (query_by_terms e ts k).map List.length =
      some (if 0 ≤ k then min k.toNat rs.length else ((rs.length : Int) + 2 * k).toNat) := by
  rw [query_by_terms_eq e ts k hrs]
  simp only [Option.map_some', List.length_map, pyTake_length, rank_results_length,
    clamp_num, Option.some.injEq]
  split_ifs <;> omega

/-! ### Concrete evaluations -/

theorem E1_docs : E1.documents = [("1", D1)] := by decide

theorem E1_idx : E1.inverted_index = [("woof", [("1", 1)])] := by decide

theorem E4_docs : E4.documents = [("1", D1), ("2", D2)] := by decide

theorem E4_idx : E4.inverted_index = [("woof", [("1", 1), ("2", 1)])] := by decide

theorem E5_docs : E5.documents = [("1", D5a), ("2", D5b), ("3", D5c)] := by decide

theorem E5_idx : E5.inverted_index = [("dog", [("1", 1), ("2", 1), ("3", 1)])] := by
  decide

theorem reachable_E1 : Reachable E1 := Reachable.add _ D1 Reachable.init

theorem reachable_E4 : Reachable E4 := Reachable.add _ D2 reachable_E1

theorem reachable_E5 : Reachable E5 :=
  Reachable.add _ D5c (Reachable.add _ D5b (Reachable.add _ D5a Reachable.init))

theorem normList_one : normList [(1 : ℝ)] = 1 := by
  have h : dotList [(1 : ℝ)] [(1 : ℝ)] = 1 := by
    simp [dotList]
  unfold normList
  rw [h, Real.sqrt_one]

theorem cosine_one : cosine_distance [(1 : ℝ)] [(1 : ℝ)] = some 0 := by
  unfold cosine_distance
  rw [if_neg]
  · have h : dotList [(1 : ℝ)] [(1 : ℝ)] = 1 := by simp [dotList]
    rw [h, normList_one]
    norm_num
  · rw [normList_one]
    norm_num

theorem E5_idf : _calculate_term_idf E5 "dog" = 1 := by
  unfold _calculate_term_idf IREngine.postings
  rw [E5_idx, E5_docs]
  simp [alookup]

theorem E5_qvec : calculate_tf_idf_for_query E5 ["dog"] = [1] := by
  rw [query_vector_eq]
  simp [E5_idf]

theorem E5_entry (dd : Document) (hterms : dd.terms = ["dog"]) (c : Nat)
    (hc : alookup [("1", 1), ("2", 1), ("3", 1)] dd.doc_id = some c) (hc1 : c = 1) :
    document_vector_entry E5 dd "dog" = some 1 := by
  unfold document_vector_entry
  rw [E5_idx]
  have halook : alookup [("dog", [("1", 1), ("2", 1), ("3", 1)])] "dog" =
      some [("1", 1), ("2", 1), ("3", 1)] := by decide
  rw [halook]
  show (if dd.terms.length = 0 then (none : Option ℝ)
      else some ((((alookup ([("1", 1), ("2", 1), ("3", 1)] : Postings) dd.doc_id).getD 0 :
        Nat) : ℝ) / (dd.terms.length : ℝ) * _calculate_term_idf E5 "dog")) = some 1
  rw [hc, hterms, E5_idf]
  subst hc1
  norm_num

theorem E5_score (i : String) (dd : Document) (hdd : alookup E5.documents i = some dd)
    (hterms : dd.terms = ["dog"]) (c : Nat)
    (hc : alookup [("1", 1), ("2", 1), ("3", 1)] dd.doc_id = some c) (hc1 : c = 1) :
    score_document E5 ["dog"] [1] i = some (dd, 1) := by
  unfold score_document
  rw [hdd]
  have hent := E5_entry dd hterms c hc hc1
  have hbv : build_document_vector E5 dd ["dog"] = some [1] := by
    simp [build_document_vector, hent]
  simp [hbv, cosine_one]

theorem E5_scored : scored_results E5 ["dog"] = some [(D5a, 1), (D5b, 1), (D5c, 1)] := by
  have hrel : _get_relevant_doc_ids E5 ["dog"] = ["1", "2", "3"] := by decide
  have h1 : score_document E5 ["dog"] [1] "1" = some (D5a, 1) :=
    E5_score "1" D5a (by rw [E5_docs]; decide) (by decide) 1 (by decide) rfl
  have h2 : score_document E5 ["dog"] [1] "2" = some (D5b, 1) :=
    E5_score "2" D5b (by rw [E5_docs]; decide) (by decide) 1 (by decide) rfl
  have h3 : score_document E5 ["dog"] [1] "3" = some (D5c, 1) :=
    E5_score "3" D5c (by rw [E5_docs]; decide) (by decide) 1 (by decide) rfl
  unfold scored_results
  rw [hrel, E5_qvec]
  simp [build_results, h1, h2, h3]

theorem E5_rank : rank_results [(D5a, 1), (D5b, 1), (D5c, 1)] =
    [(D5a, 1), (D5b, 1), (D5c, 1)] := by
  apply rank_results_of_sorted
  norm_num [List.pairwise_cons]

theorem E5_query_neg : query_by_terms E5 ["dog"] (-1) = some ["a"] := by
  rw [query_by_terms_eq E5 ["dog"] (-1) E5_scored]
  have hclamp : clamp_num ([(D5a, 1), (D5b, 1), (D5c, 1)] : List (Document × ℝ)).length
      (-1) = -1 := by decide
  rw [hclamp, E5_rank]
  have ht1 : pyTake ([(D5a, 1), (D5b, 1), (D5c, 1)] : List (Document × ℝ)) (-1 : Int) =
      ([(D5a, 1), (D5b, 1)] : List (Document × ℝ)) := rfl
  have ht2 : pyTake ([(D5a, 1), (D5b, 1)] : List (Document × ℝ)) (-1 : Int) =
      ([(D5a, 1)] : List (Document × ℝ)) := rfl
  rw [ht1, ht2]
  rfl

theorem E4_idf : _calculate_term_idf E4 "woof" = 1 := by
  unfold _calculate_term_idf IREngine.postings
  rw [E4_idx, E4_docs]
  simp [alookup]

theorem E4_qvec : calculate_tf_idf_for_query E4 ["woof"] = [1] := by
  rw [query_vector_eq]
  simp [E4_idf]

theorem E4_entry (dd : Document) (hterms : dd.terms = ["woof"]) (c : Nat)
    (hc : alookup [("1", 1), ("2", 1)] dd.doc_id = some c) (hc1 : c = 1) :
    document_vector_entry E4 dd "woof" = some 1 := by
  unfold document_vector_entry
  rw [E4_idx]
  have halook : alookup [("woof", [("1", 1), ("2", 1)])] "woof" =
      some [("1", 1), ("2", 1)] := by decide
  rw [halook]
  show (if dd.terms.length = 0 then (none : Option ℝ)
      else some ((((alookup ([("1", 1), ("2", 1)] : Postings) dd.doc_id).getD 0 :
        Nat) : ℝ) / (dd.terms.length : ℝ) * _calculate_term_idf E4 "woof")) = some 1
  rw [hc, hterms, E4_idf]
  subst hc1
  norm_num

theorem E4_score (i : String) (dd : Document) (hdd : alookup E4.documents i = some dd)
    (hterms : dd.terms = ["woof"]) (c : Nat)
    (hc : alookup [("1", 1), ("2", 1)] dd.doc_id = some c) (hc1 : c = 1) :
    score_document E4 ["woof"] [1] i = some (dd, 1) := by
  unfold score_document
  rw [hdd]
  have hent := E4_entry dd hterms c hc hc1
  have hbv : build_document_vector E4 dd ["woof"] = some [1] := by
    simp [build_document_vector, hent]
  simp [hbv, cosine_one]

theorem E4_scored : scored_results E4 ["woof"] = some [(D1, 1), (D2, 1)] := by
  have hrel : _get_relevant_doc_ids E4 ["woof"] = ["1", "2"] := by decide
  have h1 : score_document E4 ["woof"] [1] "1" = some (D1, 1) :=
    E4_score "1" D1 (by rw [E4_docs]; decide) (by decide) 1 (by decide) rfl
  have h2 : score_document E4 ["woof"] [1] "2" = some (D2, 1) :=
    E4_score "2" D2 (by rw [E4_docs]; decide) (by decide) 1 (by decide) rfl
  unfold scored_results
  rw [hrel, E4_qvec]
  simp [build_results, h1, h2]

theorem E4_query : query_by_terms E4 ["woof"] 5 = some ["woof", "woof"] := by
  rw [query_by_terms_eq E4 ["woof"] 5 E4_scored]
  have hclamp : clamp_num ([(D1, 1), (D2, 1)] : List (Document × ℝ)).length 5 = 2 := by
    decide
  rw [hclamp]
  have hrank : rank_results [(D1, 1), (D2, 1)] = [(D1, 1), (D2, 1)] := by
    apply rank_results_of_sorted
    norm_num [List.pairwise_cons]
  rw [hrank]
  have ht : pyTake ([(D1, 1), (D2, 1)] : List (Document × ℝ)) (2 : Int) =
      ([(D1, 1), (D2, 1)] : List (Document × ℝ)) := rfl
  rw [ht, ht]
  rfl

theorem pyTake_sublist {α : Type} (l : List α) (k : Int) :
    List.Sublist (pyTake l k) l :=
  List.take_sublist _ _

/-! ### Claim theorems -/

/-- C1: in every reachable engine state, a term is a key of the inverted index
iff at least one indexed document contains it at least once; a document id
appears under a term iff that document contains the term at least once; and
the stored value equals the exact number of occurrences of the term in that
document's term sequence. -/
theorem C1_inverted_index_exact (e : IREngine) (h : Reachable e) (term id : String) :
    ((alookup e.inverted_index term).isSome ↔ ∃ p ∈ e.documents, term ∈ p.2.terms) ∧
    (∀ c, alookup (e.postings term) id = some c ↔
      ∃ dd, alookup e.documents id = some dd ∧ term ∈ dd.terms ∧
        c = dd.terms.count term) := by
  have hinv := reachable_inv e h
  refine ⟨term_key_iff e hinv term, ?_⟩
  intro c
  constructor
  · intro hc
    have hle := hinv.lookup_eq term id
    rw [hc] at hle
    by_cases hz : docTermCount e id term = 0
    · rw [if_pos hz] at hle; exact absurd hle (by simp)
    · rw [if_neg hz] at hle
      have hceq : c = docTermCount e id term := Option.some.inj hle
      obtain ⟨dd, hdd, hmem⟩ := docTermCount_ne_zero hz
      refine ⟨dd, hdd, hmem, ?_⟩
      rw [hceq]
      unfold docTermCount
      rw [hdd]
  · rintro ⟨dd, hdd, hmem, rfl⟩
    have hz : docTermCount e id term ≠ 0 := by
      unfold docTermCount
      rw [hdd]
      show dd.terms.count term ≠ 0
      have := List.count_pos_iff.mpr hmem
      omega
    have hle := hinv.lookup_eq term id
    rw [if_neg hz] at hle
    rw [hle]
    have : docTermCount e id term = dd.terms.count term := by
      unfold docTermCount
      rw [hdd]
    rw [this]

/-- Witness for C1 at the one-document engine `E1`. -/
theorem C1_witness :
    ((alookup E1.inverted_index "woof").isSome ↔
      ∃ p ∈ E1.documents, "woof" ∈ p.2.terms) ∧
    (∀ c, alookup (E1.postings "woof") "1" = some c ↔
      ∃ dd, alookup E1.documents "1" = some dd ∧ "woof" ∈ dd.terms ∧
        c = dd.terms.count "woof") :=
  C1_inverted_index_exact E1 reachable_E1 "woof" "1"

/-- C2: in every reachable engine state the computed IDF equals the spec's
formula: `1.0` when no indexed document contains the term, and
`1.0 + ln(N / df(t))` otherwise, with `df(t)` the number of distinct indexed
documents containing `t`; the value is a well-defined real number in every
case (in particular for `N = 1`). -/
theorem C2_idf_formula (e : IREngine) (h : Reachable e) (term : String) :
    _calculate_term_idf e term = idf_spec e term :=
  idf_eq_spec e (reachable_inv e h) term

/-- Witness for C2 at the one-document engine `E1` (a corpus with `N = 1`). -/
theorem C2_witness : _calculate_term_idf E1 "woof" = idf_spec E1 "woof" :=
  C2_idf_formula E1 reachable_E1 "woof"

/-- C3: adding a document whose id is already present leaves the engine state
(documents and inverted index) unchanged and signals the duplicate to the
caller (the source returns `False` and performs no mutation). -/
theorem C3_duplicate_add_unchanged (e : IREngine) (d : Document)
    (h : (alookup e.documents d.doc_id).isSome) :
    add_document e d = (false, e) := by
  have hfalse : (alookup e.documents d.doc_id).isNone = false := by
    rcases Option.isSome_iff_exists.mp h with ⟨v, hv⟩
    rw [hv]
    rfl
  unfold add_document
  rw [hfalse]
  simp

/-- Witness for C3: re-adding id "1" to `E1` is rejected with no state change. -/
theorem C3_witness : add_document E1 D1dup = (false, E1) :=
  C3_duplicate_add_unchanged E1 D1dup (by rw [E1_docs]; rfl)

/-- C6 (amended): no query operation on a reachable engine state hits a
division-by-zero fault or an undefined cosine: `query_by_terms` always
returns a value.  (The embedding returns `none` for any division by zero and
for the NaN scipy produces on a zero-magnitude vector.) -/
theorem C6_no_division_fault (e : IREngine) (h : Reachable e) (terms : List String)
    (k : Int) : (query_by_terms e terms k).isSome := by
  have hinv := reachable_inv e h
  obtain ⟨rs, hrs, _, _, _⟩ := scored_results_some e hinv terms
  rw [query_by_terms_eq e terms k hrs]
  rfl

/-- Witness for C6 at `E1` with a term absent from the corpus. -/
theorem C6_witness : (query_by_terms E1 ["zebra"] 5).isSome :=
  C6_no_division_fault E1 reachable_E1 ["zebra"] 5

/-- Counterexample for C6 as stated: the cosine delegated to scipy yields an
undefined result (`none`, modelling NaN), not 0, on a zero-magnitude vector;
and the document-side TF division is not guarded — on an empty term bag it is
a `ZeroDivisionError` (`none`), not a branch returning 0. -/
theorem C6_counterexample :
    cosine_distance [(1 : ℝ)] [(0 : ℝ)] = none ∧
    document_vector_entry E5 Dempty "dog" = none := by
  constructor
  · have hz : normList [(0 : ℝ)] = 0 := by
      have hd : dotList [(0 : ℝ)] [(0 : ℝ)] = 0 := by simp [dotList]
      unfold normList
      rw [hd, Real.sqrt_zero]
    unfold cosine_distance
    rw [if_pos (Or.inr hz)]
  · unfold document_vector_entry
    rw [E5_idx]
    have halook : alookup [("dog", [("1", 1), ("2", 1), ("3", 1)])] "dog" =
        some [("1", 1), ("2", 1), ("3", 1)] := by decide
    rw [halook]
    simp [Dempty]

/-- C7: the set of documents scored by a query is exactly the union, over the
query terms, of the document ids in those terms' postings lists — and the
scored list's ids are exactly the candidate ids, so documents sharing no term
with the query are never scored. -/
theorem C7_candidates (e : IREngine) (h : Reachable e) (terms : List String) :
    (∀ i, i ∈ _get_relevant_doc_ids e terms ↔
      ∃ t ∈ terms, i ∈ (e.postings t).map Prod.fst) ∧
    (∀ rs, scored_results e terms = some rs →
      rs.map (fun p => p.1.doc_id) = _get_relevant_doc_ids e terms) := by
  have hinv := reachable_inv e h
  refine ⟨fun i => mem_relevant_iff e terms i, ?_⟩
  intro rs hrs
  obtain ⟨rs', hrs', _, _, hids⟩ := scored_results_some e hinv terms
  rw [hrs] at hrs'
  obtain rfl := Option.some.inj hrs'
  exact hids

/-- Witness for C7 at the three-document engine `E5`. -/
theorem C7_witness :
    (∀ i, i ∈ _get_relevant_doc_ids E5 ["dog"] ↔
      ∃ t ∈ ["dog"], i ∈ (E5.postings t).map Prod.fst) ∧
    (∀ rs, scored_results E5 ["dog"] = some rs →
      rs.map (fun p => p.1.doc_id) = _get_relevant_doc_ids E5 ["dog"]) :=
  C7_candidates E5 reachable_E5 ["dog"]

/-- C8: every similarity computed for a scored candidate lies in `[0, 1]`. -/
theorem C8_similarity_range (e : IREngine) (h : Reachable e) (terms : List String)
    (rs : List (Document × ℝ)) (hrs : scored_results e terms = some rs) :
    ∀ p ∈ rs, 0 ≤ p.2 ∧ p.2 ≤ 1 := by
  have hinv := reachable_inv e h
  obtain ⟨rs', hrs', _, hbnd, _⟩ := scored_results_some e hinv terms
  rw [hrs] at hrs'
  obtain rfl := Option.some.inj hrs'
  exact hbnd

/-- Witness for C8: the first scored candidate of `E5` has similarity in
`[0, 1]`. -/
theorem C8_witness : 0 ≤ ((D5a, (1 : ℝ))).2 ∧ ((D5a, (1 : ℝ))).2 ≤ 1 :=
  C8_similarity_range E5 reachable_E5 ["dog"] [(D5a, 1), (D5b, 1), (D5c, 1)]
    E5_scored (D5a, 1) (List.mem_cons_self _ _)

/-- C9: in every reachable state, every document id occurring in any postings
entry is a key of the document store, so the per-candidate document lookup of
`query_by_terms` never fails. -/
theorem C9_postings_ids_stored (e : IREngine) (h : Reachable e) :
    (∀ term : String, ∀ p ∈ e.postings term, (alookup e.documents p.1).isSome) ∧
    (∀ terms : List String, ∀ i ∈ _get_relevant_doc_ids e terms,
      (alookup e.documents i).isSome) := by
  have hinv := reachable_inv e h
  have main : ∀ term : String, ∀ p ∈ e.postings term,
      (alookup e.documents p.1).isSome := by
    intro term p hp
    have hkeys : p.1 ∈ (e.postings term).map Prod.fst := List.mem_map.mpr ⟨p, hp, rfl⟩
    have hz := (mem_postings_keys_iff e hinv term p.1).mp hkeys
    obtain ⟨dd, hdd, _⟩ := docTermCount_ne_zero hz
    rw [hdd]
    rfl
  refine ⟨main, ?_⟩
  intro terms i hi
  obtain ⟨t, _, hkeys⟩ := (mem_relevant_iff e terms i).mp hi
  obtain ⟨p, hp, hpi⟩ := List.mem_map.mp hkeys
  exact hpi ▸ main t p hp

/-- Witness for C9 at the three-document engine `E5`. -/
theorem C9_witness :
    (∀ term : String, ∀ p ∈ E5.postings term, (alookup E5.documents p.1).isSome) ∧
    (∀ terms : List String, ∀ i ∈ _get_relevant_doc_ids E5 terms,
      (alookup E5.documents i).isSome) :=
  C9_postings_ids_stored E5 reachable_E5

/-- Counterexample for C4 as stated: `query_by_terms` returns the bare texts
(`str(document)`), not the stored Document objects.  `E4` stores two distinct
documents (ids "1" and "2") with equal text; the query returns the
indistinguishable list `["woof", "woof"]`, from which the Document objects
(and their ids) cannot be recovered. -/
theorem C4_counterexample :
    query_by_terms E4 ["woof"] 5 = some ["woof", "woof"] ∧
    alookup E4.documents "1" = some D1 ∧ alookup E4.documents "2" = some D2 ∧
    D1 ≠ D2 := by
  refine ⟨E4_query, ?_, ?_, by decide⟩
  · rw [E4_docs]; decide
  · rw [E4_docs]; decide

/-- C4 (amended): on every reachable state the query succeeds, and its output
is exactly the text (`str(document)`) of each entry of the sliced
similarity-ranked candidate list: with `rs` the actual scored candidate list
(`scored_results`), `rank_results rs` is a permutation of `rs` sorted by
similarity descending, the returned list is its double Python slice mapped to
texts — not the Document objects — and the slice is itself sorted descending;
`free_text_query` tokenizes and delegates to `query_by_terms`. -/
theorem C4_returns_texts_sorted (e : IREngine) (h : Reachable e)
    (terms : List String) (k : Int) :
    (scored_results e terms).isSome ∧
    (∀ rs, scored_results e terms = some rs →
      List.Perm (rank_results rs) rs ∧
      (rank_results rs).Pairwise (fun a b : Document × ℝ => b.2 ≤ a.2) ∧
      query_by_terms e terms k =
        some ((pyTake (pyTake (rank_results rs) (clamp_num rs.length k))
          (clamp_num rs.length k)).map (fun p => p.1.text)) ∧
      (pyTake (pyTake (rank_results rs) (clamp_num rs.length k))
        (clamp_num rs.length k)).Pairwise (fun a b : Document × ℝ => b.2 ≤ a.2)) ∧
    (∀ tokenize : String → List String, ∀ s : String,
      free_text_query e tokenize s k = query_by_terms e (tokenize s) k) := by
  have hinv := reachable_inv e h
  obtain ⟨rs0, hrs0, _, _, _⟩ := scored_results_some e hinv terms
  refine ⟨by rw [hrs0]; rfl, ?_, fun _ _ => rfl⟩
  intro rs hrs
  have hsub : List.Sublist (pyTake (pyTake (rank_results rs) (clamp_num rs.length k))
      (clamp_num rs.length k)) (rank_results rs) :=
    (pyTake_sublist _ _).trans (pyTake_sublist _ _)
  exact ⟨rank_results_perm rs, rank_results_sorted rs, query_by_terms_eq e terms k hrs,
    List.Pairwise.sublist hsub (rank_results_sorted rs)⟩

/-- Witness for the amended C4 at the one-document engine `E1`. -/
theorem C4_witness :
    (scored_results E1 ["woof"]).isSome ∧
    (∀ rs, scored_results E1 ["woof"] = some rs →
      List.Perm (rank_results rs) rs ∧
      (rank_results rs).Pairwise (fun a b : Document × ℝ => b.2 ≤ a.2) ∧
      query_by_terms E1 ["woof"] 1 =
        some ((pyTake (pyTake (rank_results rs) (clamp_num rs.length 1))
          (clamp_num rs.length 1)).map (fun p => p.1.text)) ∧
      (pyTake (pyTake (rank_results rs) (clamp_num rs.length 1))
        (clamp_num rs.length 1)).Pairwise (fun a b : Document × ℝ => b.2 ≤ a.2)) ∧
    (∀ tokenize : String → List String, ∀ s : String,
      free_text_query E1 tokenize s 1 = query_by_terms E1 (tokenize s) 1) :=
  C4_returns_texts_sorted E1 reachable_E1 ["woof"] 1

/-- Counterexample for C5 as stated: `k = -1 ≤ 0` does not yield an empty
result on a three-candidate query — Python's negative slicing applied twice
returns one result. -/
theorem C5_counterexample :
    query_by_terms E5 ["dog"] (-1) = some ["a"] ∧ (["a"] : List String) ≠ [] :=
  ⟨E5_query_neg, by simp⟩

/-- C5 (amended): an empty query yields an empty result for any `k`; `k = 0`
yields an empty result; and the number of returned results is
`min(k, candidates)` for `k ≥ 0` but `max 0 (candidates + 2k)` for `k < 0`
(Python negative-slice semantics applied twice), which can be nonzero. -/
theorem C5_result_lengths (e : IREngine) (h : Reachable e) (terms : List String)
    (k : Int) :
    (terms = [] → query_by_terms e terms k = some []) ∧
    (query_by_terms e terms 0 = some []) ∧
    ((query_by_terms e terms k).map List.length =
      some (if 0 ≤ k then min k.toNat (_get_relevant_doc_ids e terms).length
            else (((_get_relevant_doc_ids e terms).length : Int) + 2 * k).toNat)) := by
  have hinv := reachable_inv e h
  obtain ⟨rs, hrs, hlen, _, _⟩ := scored_results_some e hinv terms
  refine ⟨?_, ?_, ?_⟩
  · intro hnil
    subst hnil
    have hrel : _get_relevant_doc_ids e [] = [] := rfl
    have hrs0 : rs = [] := by
      rw [← List.length_eq_zero, hlen, hrel]
      rfl
    subst hrs0
    rw [query_by_terms_eq e [] k hrs]
    have hrank : rank_results [] = [] := by
      unfold rank_results
      simp
    rw [hrank]
    simp [pyTake]
  · rw [query_by_terms_eq e terms 0 hrs]
    have hclamp : clamp_num rs.length 0 = 0 := by
      unfold clamp_num
      split_ifs with hgt
      · omega
      · rfl
    rw [hclamp]
    have htake0 : ∀ l : List (Document × ℝ), pyTake l (0 : Int) = [] := by
      intro l
      unfold pyTake
      norm_num
    rw [htake0]
    rfl
  · rw [query_by_terms_length e terms k hrs, hlen]

/-- Witness for the amended C5 at the one-document engine `E1` with `k = 7`. -/
theorem C5_witness :
    ((["woof"] : List String) = [] → query_by_terms E1 ["woof"] 7 = some []) ∧
    (query_by_terms E1 ["woof"] 0 = some []) ∧
    ((query_by_terms E1 ["woof"] 7).map List.length =
      some (if 0 ≤ (7 : Int) then min (7 : Int).toNat (_get_relevant_doc_ids E1 ["woof"]).length
            else (((_get_relevant_doc_ids E1 ["woof"]).length : Int) + 2 * 7).toNat)) :=
  C5_result_lengths E1 reachable_E1 ["woof"] 7

/-- C10: adding a document with an empty term sequence under a fresh id
succeeds, leaves the inverted index unchanged, increments the document count
`N` that the IDF formula divides by, and such a document is never a candidate
for (nor returned by) any query in any reachable state. -/
theorem C10_empty_document (e : IREngine) (_h : Reachable e) (d : Document)
    (hterms : d.terms = []) (hfresh : alookup e.documents d.doc_id = none) :
    (add_document e d).1 = true ∧
    (add_document e d).2.inverted_index = e.inverted_index ∧
    (add_document e d).2.documents.length = e.documents.length + 1 ∧
    (∀ t, _calculate_term_idf (add_document e d).2 t =
      (if (alookup e.inverted_index t).isSome then
        1 + Real.log (((e.documents.length + 1 : ℕ) : ℝ) / ((e.postings t).length : ℝ))
       else 1)) ∧
    (∀ e' : IREngine, Reachable e' → ∀ id dd, alookup e'.documents id = some dd →
      dd.terms = [] → ∀ qterms, id ∉ _get_relevant_doc_ids e' qterms ∧
        ∀ rs, scored_results e' qterms = some rs → ∀ p ∈ rs, p.1.doc_id ≠ id) := by
  have hdup : (alookup e.documents d.doc_id).isNone := by rw [hfresh]; rfl
  have hstep : add_document e d =
      (true, ⟨e.documents ++ [(d.doc_id, d)],
        update_inverted_index e.inverted_index d⟩) := by
    unfold add_document
    rw [if_pos hdup]
  have hupd : update_inverted_index e.inverted_index d = e.inverted_index := by
    unfold update_inverted_index
    rw [hterms]
    rfl
  refine ⟨by rw [hstep], by rw [hstep]; exact hupd, by rw [hstep]; simp, ?_, ?_⟩
  · intro t
    rw [hstep]
    unfold _calculate_term_idf IREngine.postings
    simp only [hupd, List.length_append, List.length_cons, List.length_nil]
  · intro e' h' id dd hdd hempty qterms
    have hinv' := reachable_inv e' h'
    have hnotmem : id ∉ _get_relevant_doc_ids e' qterms := by
      intro hmem
      obtain ⟨ddx, t, hddx, _, _, hlenx⟩ := relevant_doc_properties e' hinv' hmem
      rw [hdd] at hddx
      have hddeq : dd = ddx := Option.some.inj hddx
      rw [← hddeq, hempty] at hlenx
      simp at hlenx
    refine ⟨hnotmem, ?_⟩
    intro rs hrs p hp heq
    obtain ⟨rs', hrs', _, _, hids⟩ := scored_results_some e' hinv' qterms
    rw [hrs] at hrs'
    obtain rfl := Option.some.inj hrs'
    exact hnotmem (hids ▸ List.mem_map.mpr ⟨p, hp, heq⟩)

/-- Witness for C10: adding the empty-terms document `Dempty` to `E1`. -/
theorem C10_witness :
    (add_document E1 Dempty).1 = true ∧
    (add_document E1 Dempty).2.inverted_index = E1.inverted_index ∧
    (add_document E1 Dempty).2.documents.length = E1.documents.length + 1 ∧
    (∀ t, _calculate_term_idf (add_document E1 Dempty).2 t =
      (if (alookup E1.inverted_index t).isSome then
        1 + Real.log (((E1.documents.length + 1 : ℕ) : ℝ) / ((E1.postings t).length : ℝ))
       else 1)) ∧
    (∀ e' : IREngine, Reachable e' → ∀ id dd, alookup e'.documents id = some dd →
      dd.terms = [] → ∀ qterms, id ∉ _get_relevant_doc_ids e' qterms ∧
        ∀ rs, scored_results e' qterms = some rs → ∀ p ∈ rs, p.1.doc_id ≠ id) :=
  C10_empty_document E1 reachable_E1 Dempty rfl (by rw [E1_docs]; rfl)

end ToyIR
